import Mathlib

/-!
Verification of the Authorino auth-pipeline core (`pkg/service/auth_context.go`)
against its natural-language specification.

The Go code is shallowly embedded as follows.

* An `Evaluator` stands for one `common.AuthConfigEvaluator` (an identity,
  metadata or authorization config).  Its `Call` behaviour for the request at
  hand is recorded in the `call` field: `Except.ok obj` when the backend
  succeeds with result object `obj`, `Except.error e` when it fails with
  error `e`.  Result objects and errors (`interface{}` / `error` values in Go)
  are represented by opaque `Nat` codes.
* `EvaluationResponse` mirrors the Go struct of the same name; the Go nil-able
  `Object interface{}` and `Error error` fields become `Option Nat`.
* `AuthContext` mirrors the Go struct: the parent context is retained only as
  the flag `parentCancelled` (the pipeline never reads anything else from it),
  the request is retained as its `authorization`-relevant header map, the
  `API *config.APIConfig` field becomes the three evaluator lists, and the
  three Go result maps become association lists written through `goMapInsert`,
  the insert-or-replace operation of a Go map assignment `m[k] = v`.
* The fan-out runners `evaluateOneAuthConfig`, `evaluateAllAuthConfigs` and
  `evaluateAnyAuthConfig` spawn one goroutine per config which emits at most
  one `EvaluationResponse` on the shared buffered channel; the consumer loops
  read the channel in emission order.  The concurrency is abstracted by
  quantifying over the channel content `respChannel : List EvaluationResponse`
  constrained by a validity predicate derived from the goroutine structure:
  - every emitted response is the actual outcome of one of the configs, and
    each config emits at most once (`respChannel <+~ configs.map
    actualResponse`, in an arbitrary interleaving order);
  - in `evaluateOneAuthConfig` a task can be suppressed (exit on `ctx.Done()`
    without emitting) only after `cancel()` was called, and the first
    `cancel()` is reachable only after some success was emitted, so a channel
    shorter than the config list contains a success;
  - dually in `evaluateAllAuthConfigs` (`cancel()` is called right after a
    failure emission), so a short channel contains a failure;
  - `evaluateAnyAuthConfig` never cancels, so every config emits exactly once
    and the channel is a permutation of all outcomes.
* The consumer loops (`for resp := range respChannel { ... }` in
  `evaluateIdentityConfigs`, `evaluateMetadataConfigs`,
  `evaluateAuthorizationConfigs`) are translated statement by statement into
  the structurally recursive `...ConfigsLoop` functions below.
* `AuthorizationToken` is translated with Go's `strings.Split(authHeader,
  "Bearer ")` specialised to its separator (`splitBearer`); the index
  expression `splitToken[1]` is modelled by `List.get?`, so the value `none`
  of the result marks the run that would panic in Go.
-/

deriving instance DecidableEq for Except

namespace Authorino

/-- One auth-config evaluator (`common.AuthConfigEvaluator`): a stable
identity (`id`), the type tag reported by `GetType()` (`typeTag`), and the
outcome its `Call` produces for the request under consideration. -/
structure Evaluator where
  id : Nat
  typeTag : String
  call : Except Nat Nat
deriving DecidableEq

/-- Whether the evaluator's `Call` succeeds. -/
def Evaluator.succeeds (ev : Evaluator) : Bool :=
  match ev.call with
  | Except.ok _ => true
  | Except.error _ => false

/-- Mirror of the Go struct `EvaluationResponse`. -/
structure EvaluationResponse where
  evaluator : Evaluator
  success : Bool
  object : Option Nat
  error : Option Nat
deriving DecidableEq

/-- Mirror of `newEvaluationResponseSuccess`. -/
def newEvaluationResponseSuccess (evaluator : Evaluator) (obj : Nat) :
    EvaluationResponse :=
  { evaluator := evaluator, success := true, object := some obj, error := none }

/-- Mirror of `newEvaluationResponseFailure`. -/
def newEvaluationResponseFailure (evaluator : Evaluator) (err : Nat) :
    EvaluationResponse :=
  { evaluator := evaluator, success := false, object := none, error := some err }

/-- The response a goroutine of the fan-out runner emits for `ev` when it is
not suppressed by cancellation: `evaluateAuthConfig` calls `config.Call` and
either invokes the success callback or returns the error to the failure
callback. -/
def actualResponse (ev : Evaluator) : EvaluationResponse :=
  match ev.call with
  | Except.ok obj => newEvaluationResponseSuccess ev obj
  | Except.error e => newEvaluationResponseFailure ev e

/-- Mirror of the Go struct `AuthContext`.  `parentCancelled` records whether
the `ParentContext` has been cancelled; `requestHeaders` is the header map
`Request.Attributes.Request.Http.Headers`; the three `api...Configs` lists are
the fields of `API *config.APIConfig`; the three result maps are kept as
association lists in insertion order. -/
structure AuthContext where
  parentCancelled : Bool
  requestHeaders : List (String × List Char)
  apiIdentityConfigs : List Evaluator
  apiMetadataConfigs : List Evaluator
  apiAuthorizationConfigs : List Evaluator
  Identity : List (Evaluator × Nat)
  Metadata : List (Evaluator × Nat)
  Authorization : List (Evaluator × Nat)
deriving DecidableEq

/-- Mirror of `NewAuthContext`: fresh empty result maps. -/
def NewAuthContext (parentCancelled : Bool)
    (requestHeaders : List (String × List Char))
    (idConfigs mdConfigs azConfigs : List Evaluator) : AuthContext :=
  { parentCancelled := parentCancelled
    requestHeaders := requestHeaders
    apiIdentityConfigs := idConfigs
    apiMetadataConfigs := mdConfigs
    apiAuthorizationConfigs := azConfigs
    Identity := []
    Metadata := []
    Authorization := [] }

/-- A Go map assignment `m[k] = v` on an association list: replace the value
when the key is present, append a new binding otherwise. -/
def goMapInsert {κ : Type} [DecidableEq κ] (k : κ) (v : Nat)
    (m : List (κ × Nat)) : List (κ × Nat) :=
  if k ∈ m.map Prod.fst then
    m.map (fun p => if p.1 = k then (p.1, v) else p)
  else
    m ++ [(k, v)]

/-- Channel validity for `evaluateOneAuthConfig` (identity fan-out, cancel on
first success): the channel holds actual outcomes, each config emitting at
most once, and a task can have been suppressed only after a success was
emitted. -/
def oneAuthConfigChannel (authConfigs : List Evaluator)
    (respChannel : List EvaluationResponse) : Prop :=
  List.Subperm respChannel (authConfigs.map actualResponse) ∧
    (respChannel.length < authConfigs.length →
      ∃ r ∈ respChannel, r.success = true)

/-- Channel validity for `evaluateAllAuthConfigs` (authorization fan-out,
cancel on first failure): as above, but a task can have been suppressed only
after a failure was emitted. -/
def allAuthConfigsChannel (authConfigs : List Evaluator)
    (respChannel : List EvaluationResponse) : Prop :=
  List.Subperm respChannel (authConfigs.map actualResponse) ∧
    (respChannel.length < authConfigs.length →
      ∃ r ∈ respChannel, r.success = false)

/-- Channel validity for `evaluateAnyAuthConfig` (metadata fan-out, no
cancellation): every config emits exactly once. -/
def anyAuthConfigChannel (authConfigs : List Evaluator)
    (respChannel : List EvaluationResponse) : Prop :=
  respChannel.Perm (authConfigs.map actualResponse)

instance (cs : List Evaluator) (rs : List EvaluationResponse) :
    Decidable (oneAuthConfigChannel cs rs) :=
  inferInstanceAs (Decidable (List.Subperm rs (cs.map actualResponse) ∧
    (rs.length < cs.length → ∃ r ∈ rs, r.success = true)))

instance (cs : List Evaluator) (rs : List EvaluationResponse) :
    Decidable (allAuthConfigsChannel cs rs) :=
  inferInstanceAs (Decidable (List.Subperm rs (cs.map actualResponse) ∧
    (rs.length < cs.length → ∃ r ∈ rs, r.success = false)))

instance (cs : List Evaluator) (rs : List EvaluationResponse) :
    Decidable (anyAuthConfigChannel cs rs) :=
  inferInstanceAs (Decidable (rs.Perm (cs.map actualResponse)))

/-- The consumer loop of `evaluateIdentityConfigs`: on a success, record it in
the `Identity` map and return `nil`; on a failure, remember the error in
`lastError` and continue; when the channel closes, return `lastError`. -/
def identityConfigsLoop (authContext : AuthContext) (lastError : Option Nat) :
    List EvaluationResponse → AuthContext × Option Nat
  | [] => (authContext, lastError)
  | resp :: rest =>
    if resp.success then
      ({ authContext with
          Identity := goMapInsert resp.evaluator (resp.object.getD 0)
            authContext.Identity }, none)
    else
      identityConfigsLoop authContext resp.error rest

/-- Mirror of `evaluateIdentityConfigs`, applied to a channel content produced
by `evaluateOneAuthConfig` over `apiIdentityConfigs`. -/
def evaluateIdentityConfigs (authContext : AuthContext)
    (respChannel : List EvaluationResponse) : AuthContext × Option Nat :=
  identityConfigsLoop authContext none respChannel

/-- The consumer loop of `evaluateMetadataConfigs`: record successes in the
`Metadata` map, log and drop failures; no error is ever returned. -/
def metadataConfigsLoop (authContext : AuthContext) :
    List EvaluationResponse → AuthContext
  | [] => authContext
  | resp :: rest =>
    if resp.success then
      metadataConfigsLoop
        { authContext with
            Metadata := goMapInsert resp.evaluator (resp.object.getD 0)
              authContext.Metadata } rest
    else
      metadataConfigsLoop authContext rest

/-- Mirror of `evaluateMetadataConfigs`, applied to a channel content produced
by `evaluateAnyAuthConfig` over `apiMetadataConfigs`. -/
def evaluateMetadataConfigs (authContext : AuthContext)
    (respChannel : List EvaluationResponse) : AuthContext :=
  metadataConfigsLoop authContext respChannel

/-- The consumer loop of `evaluateAuthorizationConfigs`: record successes in
the `Authorization` map; on the first failure return its error. -/
def authorizationConfigsLoop (authContext : AuthContext) :
    List EvaluationResponse → AuthContext × Option Nat
  | [] => (authContext, none)
  | resp :: rest =>
    if resp.success then
      authorizationConfigsLoop
        { authContext with
            Authorization := goMapInsert resp.evaluator (resp.object.getD 0)
              authContext.Authorization } rest
    else
      (authContext, resp.error)

/-- Mirror of `evaluateAuthorizationConfigs`, applied to a channel content
produced by `evaluateAllAuthConfigs` over `apiAuthorizationConfigs`. -/
def evaluateAuthorizationConfigs (authContext : AuthContext)
    (respChannel : List EvaluationResponse) : AuthContext × Option Nat :=
  authorizationConfigsLoop authContext respChannel

/-- Mirror of `Evaluate`: identity, then metadata, then authorization; a
non-nil identity error aborts the pipeline.  The three channel contents are
the nondeterministic interleavings of the three fan-outs. -/
def Evaluate (authContext : AuthContext)
    (identityChannel metadataChannel authorizationChannel :
      List EvaluationResponse) : AuthContext × Option Nat :=
  match evaluateIdentityConfigs authContext identityChannel with
  | (ctx1, some e) => (ctx1, some e)
  | (ctx1, none) =>
    evaluateAuthorizationConfigs
      (evaluateMetadataConfigs ctx1 metadataChannel) authorizationChannel

/-- Mirror of `GetMetadata`: rebuild a Go map keyed by the evaluator type tag
from the `Metadata` result map (`m[t] = metadataObj`). -/
def GetMetadata (authContext : AuthContext) : List (String × Nat) :=
  authContext.Metadata.foldl (fun m p => goMapInsert p.1.typeTag p.2 m) []

/-- The separator of the `strings.Split(authHeader, "Bearer ")` call. -/
def bearerSep : List Char := "Bearer ".toList

/-- Whether `sep` occurs at the head of `s` (Go `strings.Index` hit at 0). -/
def leadingMatch : List Char → List Char → Bool
  | [], _ => true
  | _ :: _, [] => false
  | a :: as, b :: bs => a = b && leadingMatch as bs

/-- Whether `bearerSep` occurs anywhere in `s`. -/
def containsBearerSep : List Char → Bool
  | [] => false
  | c :: rest => leadingMatch bearerSep (c :: rest) || containsBearerSep rest

/-- Go's `strings.Split(s, "Bearer ")` scan, with explicit fuel so that the
recursion is structural; each step consumes at least one character, so
`s.length` fuel always suffices. -/
def splitBearerFuel : Nat → List Char → List (List Char)
  | 0, s => [s]
  | _ + 1, [] => [[]]
  | fuel + 1, c :: rest =>
    if leadingMatch bearerSep (c :: rest) then
      [] :: splitBearerFuel fuel (List.drop bearerSep.length (c :: rest))
    else
      match splitBearerFuel fuel rest with
      | [] => [[c]]
      | p :: ps => (c :: p) :: ps

/-- `strings.Split(s, "Bearer ")`. -/
def splitBearer (s : List Char) : List (List Char) :=
  splitBearerFuel s.length s

/-- The error message of the malformed-header failure in `AuthorizationToken`. -/
def malformedCredential : String :=
  "authorization header malformed or not provided"

/-- Mirror of `AuthorizationToken`.  The outer `Option` models partiality of
the Go function: `none` marks the run in which `splitToken[1]` would be
evaluated against a slice without an index 1 and Go would panic. -/
def AuthorizationToken (authContext : AuthContext) :
    Option (Except String (List Char)) :=
  let authHeaderEntry := authContext.requestHeaders.lookup "authorization"
  let authHeaderOK := authHeaderEntry.isSome
  let splitToken :=
    if authHeaderOK then splitBearer (authHeaderEntry.getD []) else []
  if authHeaderOK = false ∨ splitToken.length ≠ 2 then
    some (Except.error malformedCredential)
  else
    (splitToken.get? 1).map Except.ok

/-- The map entry a success response produces (`map[conf] = obj`). -/
def successRecord (r : EvaluationResponse) : Evaluator × Nat :=
  (r.evaluator, r.object.getD 0)

/-! ### Concrete fixtures used to instantiate the theorems -/

/-- A succeeding identity evaluator. -/
def evOkA : Evaluator := { id := 1, typeTag := "oidc", call := Except.ok 10 }

/-- A succeeding metadata evaluator. -/
def evOkB : Evaluator :=
  { id := 2, typeTag := "userinfo", call := Except.ok 20 }

/-- A succeeding authorization evaluator. -/
def evOkD : Evaluator := { id := 4, typeTag := "opa", call := Except.ok 40 }

/-- A failing evaluator. -/
def evFailC : Evaluator := { id := 3, typeTag := "opa", call := Except.error 30 }

/-- Another failing evaluator. -/
def evFailE : Evaluator := { id := 5, typeTag := "jwt", call := Except.error 50 }

/-! ### Basic facts about responses -/

theorem actualResponse_evaluator (ev : Evaluator) :
    (actualResponse ev).evaluator = ev := by
  unfold actualResponse newEvaluationResponseSuccess newEvaluationResponseFailure
  cases ev.call <;> rfl

theorem actualResponse_success (ev : Evaluator) :
    (actualResponse ev).success = ev.succeeds := by
  unfold actualResponse Evaluator.succeeds
    newEvaluationResponseSuccess newEvaluationResponseFailure
  cases ev.call <;> rfl

theorem actualResponse_object (ev : Evaluator) {obj : Nat}
    (h : ev.call = Except.ok obj) : (actualResponse ev).object = some obj := by
  unfold actualResponse newEvaluationResponseSuccess
  rw [h]

theorem actualResponse_error_isSome (ev : Evaluator) (h : ev.succeeds = false) :
    (actualResponse ev).error.isSome = true := by
  unfold Evaluator.succeeds at h
  unfold actualResponse newEvaluationResponseSuccess newEvaluationResponseFailure
  cases hc : ev.call with
  | ok obj => rw [hc] at h; simp at h
  | error e => simp

theorem mem_map_actualResponse {cs : List Evaluator} {r : EvaluationResponse}
    (h : r ∈ cs.map actualResponse) : ∃ ev ∈ cs, r = actualResponse ev := by
  obtain ⟨ev, hev, hr⟩ := List.mem_map.mp h
  exact ⟨ev, hev, hr.symm⟩

/-! ### Facts about the channel-validity predicates -/

theorem channel_evaluators_nodup {cs : List Evaluator}
    {rs : List EvaluationResponse}
    (h : List.Subperm rs (cs.map actualResponse)) (hnd : cs.Nodup) :
    (rs.map (fun r => r.evaluator)).Nodup := by
  obtain ⟨l, hperm, hsub⟩ := h
  have hmap : (cs.map actualResponse).map (fun r => r.evaluator) = cs := by
    rw [List.map_map]
    have : ((fun r : EvaluationResponse => r.evaluator) ∘ actualResponse)
        = fun ev => ev := by
      funext ev
      exact actualResponse_evaluator ev
    rw [this]
    exact List.map_id cs
  have hsub2 : List.Sublist (l.map (fun r => r.evaluator)) cs := by
    have := hsub.map (fun r => r.evaluator)
    rwa [hmap] at this
  have hl : (l.map (fun r => r.evaluator)).Nodup := hnd.sublist hsub2
  exact (hperm.map (fun r => r.evaluator)).nodup hl

theorem allChannel_perm_of_all_success {cs : List Evaluator}
    {rs : List EvaluationResponse} (h : allAuthConfigsChannel cs rs)
    (hall : ∀ ev ∈ cs, ev.succeeds = true) :
    rs.Perm (cs.map actualResponse) := by
  rcases h with ⟨hsub, hlen⟩
  by_cases hl : rs.length < cs.length
  · obtain ⟨r, hr, hfail⟩ := hlen hl
    obtain ⟨ev, hev, rfl⟩ := mem_map_actualResponse (hsub.subset hr)
    rw [actualResponse_success] at hfail
    rw [hall ev hev] at hfail
    cases hfail
  · exact hsub.perm_of_length_le (by simpa using Nat.le_of_not_lt hl)

theorem oneChannel_perm_of_all_fail {cs : List Evaluator}
    {rs : List EvaluationResponse} (h : oneAuthConfigChannel cs rs)
    (hall : ∀ ev ∈ cs, ev.succeeds = false) :
    rs.Perm (cs.map actualResponse) := by
  rcases h with ⟨hsub, hlen⟩
  by_cases hl : rs.length < cs.length
  · obtain ⟨r, hr, hok⟩ := hlen hl
    obtain ⟨ev, hev, rfl⟩ := mem_map_actualResponse (hsub.subset hr)
    rw [actualResponse_success] at hok
    rw [hall ev hev] at hok
    cases hok
  · exact hsub.perm_of_length_le (by simpa using Nat.le_of_not_lt hl)

theorem oneChannel_exists_success {cs : List Evaluator}
    {rs : List EvaluationResponse} (h : oneAuthConfigChannel cs rs)
    (hs : ∃ ev ∈ cs, ev.succeeds = true) : ∃ r ∈ rs, r.success = true := by
  rcases h with ⟨hsub, hlen⟩
  by_cases hl : rs.length < cs.length
  · exact hlen hl
  · have hperm := hsub.perm_of_length_le (by simpa using Nat.le_of_not_lt hl)
    obtain ⟨ev, hev, hok⟩ := hs
    refine ⟨actualResponse ev, ?_, ?_⟩
    · exact hperm.mem_iff.mpr (List.mem_map_of_mem actualResponse hev)
    · rw [actualResponse_success]; exact hok

theorem allChannel_exists_failure {cs : List Evaluator}
    {rs : List EvaluationResponse} (h : allAuthConfigsChannel cs rs)
    (hs : ∃ ev ∈ cs, ev.succeeds = false) : ∃ r ∈ rs, r.success = false := by
  rcases h with ⟨hsub, hlen⟩
  by_cases hl : rs.length < cs.length
  · exact hlen hl
  · have hperm := hsub.perm_of_length_le (by simpa using Nat.le_of_not_lt hl)
    obtain ⟨ev, hev, hko⟩ := hs
    refine ⟨actualResponse ev, ?_, ?_⟩
    · exact hperm.mem_iff.mpr (List.mem_map_of_mem actualResponse hev)
    · rw [actualResponse_success]; exact hko

/-! ### Facts about `goMapInsert` -/

theorem goMapInsert_of_not_mem {κ : Type} [DecidableEq κ] {k : κ} {v : Nat}
    {m : List (κ × Nat)} (h : k ∉ m.map Prod.fst) :
    goMapInsert k v m = m ++ [(k, v)] := by
  unfold goMapInsert
  simp [h]

theorem map_fst_goMapInsert_of_mem {κ : Type} [DecidableEq κ] {k : κ} {v : Nat}
    {m : List (κ × Nat)} (h : k ∈ m.map Prod.fst) :
    (goMapInsert k v m).map Prod.fst = m.map Prod.fst := by
  unfold goMapInsert
  simp only [h, if_pos, List.map_map]
  refine List.map_congr_left ?_
  intro p _
  by_cases hp : p.1 = k <;> simp [hp]

theorem mem_map_fst_goMapInsert {κ : Type} [DecidableEq κ] {x k : κ} {v : Nat}
    {m : List (κ × Nat)} :
    (x ∈ (goMapInsert k v m).map Prod.fst) ↔ (x ∈ m.map Prod.fst ∨ x = k) := by
  by_cases h : k ∈ m.map Prod.fst
  · rw [map_fst_goMapInsert_of_mem h]
    constructor
    · exact fun hx => Or.inl hx
    · rintro (hx | rfl)
      · exact hx
      · exact h
  · rw [goMapInsert_of_not_mem h]
    simp

theorem length_goMapInsert {κ : Type} [DecidableEq κ] (k : κ) (v : Nat)
    (m : List (κ × Nat)) :
    (goMapInsert k v m).length =
      if k ∈ m.map Prod.fst then m.length else m.length + 1 := by
  unfold goMapInsert
  by_cases h : k ∈ m.map Prod.fst <;> simp [h]

theorem nodup_map_fst_goMapInsert {κ : Type} [DecidableEq κ] {k : κ} {v : Nat}
    {m : List (κ × Nat)} (h : (m.map Prod.fst).Nodup) :
    ((goMapInsert k v m).map Prod.fst).Nodup := by
  by_cases hk : k ∈ m.map Prod.fst
  · rw [map_fst_goMapInsert_of_mem hk]
    exact h
  · rw [goMapInsert_of_not_mem hk]
    simp only [List.map_append, List.map_cons, List.map_nil]
    rw [List.nodup_append]
    exact ⟨h, List.nodup_singleton _, by simpa using hk⟩

/-! ### Facts about the consumer loops -/

theorem identityConfigsLoop_fst (ctx : AuthContext) (le : Option Nat)
    (rs : List EvaluationResponse) :
    (identityConfigsLoop ctx le rs).1 =
      { ctx with Identity := (identityConfigsLoop ctx le rs).1.Identity } := by
  induction rs generalizing le with
  | nil => rfl
  | cons r rest ih =>
    by_cases hr : r.success = true
    · simp [identityConfigsLoop, hr]
    · simp only [identityConfigsLoop, hr, if_neg, Bool.false_eq_true,
        not_false_eq_true, ite_false]
      exact ih r.error

theorem identityConfigsLoop_all_fail (ctx : AuthContext) (le : Option Nat)
    {rs : List EvaluationResponse} (h : ∀ r ∈ rs, r.success = false) :
    identityConfigsLoop ctx le rs =
      (ctx, rs.foldl (fun _ r => r.error) le) := by
  induction rs generalizing le with
  | nil => rfl
  | cons r rest ih =>
    have hr : r.success = false := h r (List.mem_cons_self r rest)
    simp only [identityConfigsLoop, hr, Bool.false_eq_true, not_false_eq_true,
      ite_false, List.foldl_cons]
    exact ih r.error (fun x hx => h x (List.mem_cons_of_mem r hx))

theorem foldl_error_getLast {rs : List EvaluationResponse} (h : rs ≠ [])
    (le : Option Nat) :
    ∃ r, rs.getLast? = some r ∧ r ∈ rs ∧
      rs.foldl (fun _ x => x.error) le = r.error := by
  induction rs generalizing le with
  | nil => cases h rfl
  | cons r rest ih =>
    cases rest with
    | nil => exact ⟨r, by simp, List.mem_cons_self r [], rfl⟩
    | cons x xs =>
      obtain ⟨y, hy, hmem, hf⟩ := ih (by simp) r.error
      exact ⟨y, by rw [List.getLast?_cons_cons]; exact hy,
        List.mem_cons_of_mem r hmem, hf⟩

theorem identityConfigsLoop_first_success (ctx : AuthContext) (le : Option Nat)
    {rs : List EvaluationResponse} (h : ∃ r ∈ rs, r.success = true) :
    ∃ r, r ∈ rs ∧ r.success = true ∧
      identityConfigsLoop ctx le rs =
        ({ ctx with Identity :=
            goMapInsert r.evaluator (r.object.getD 0) ctx.Identity }, none) := by
  induction rs generalizing le with
  | nil => simp at h
  | cons r rest ih =>
    by_cases hr : r.success = true
    · refine ⟨r, List.mem_cons_self r rest, hr, ?_⟩
      simp [identityConfigsLoop, hr]
    · have hrest : ∃ x ∈ rest, x.success = true := by
        obtain ⟨x, hx, hs⟩ := h
        cases List.mem_cons.mp hx with
        | inl e => rw [e] at hs; exact absurd hs hr
        | inr hx2 => exact ⟨x, hx2, hs⟩
      obtain ⟨x, hx, hs, heq⟩ := ih r.error hrest
      refine ⟨x, List.mem_cons_of_mem r hx, hs, ?_⟩
      simp only [identityConfigsLoop, hr, Bool.false_eq_true, not_false_eq_true,
        ite_false]
      exact heq

theorem metadataConfigsLoop_append (ctx : AuthContext)
    {rs : List EvaluationResponse}
    (hnd : (rs.map (fun r => r.evaluator)).Nodup)
    (hdisj : ∀ r ∈ rs, r.evaluator ∉ ctx.Metadata.map Prod.fst) :
    metadataConfigsLoop ctx rs =
      { ctx with Metadata :=
          ctx.Metadata ++ (rs.filter (fun r => r.success)).map successRecord } := by
  induction rs generalizing ctx with
  | nil => simp [metadataConfigsLoop]
  | cons r rest ih =>
    simp only [List.map_cons, List.nodup_cons] at hnd
    by_cases hr : r.success = true
    · simp only [metadataConfigsLoop, hr, ite_true, List.filter_cons, if_pos,
        List.map_cons]
      rw [goMapInsert_of_not_mem (hdisj r (List.mem_cons_self r rest))]
      rw [ih _ hnd.2 ?_]
      · simp [successRecord, List.append_assoc]
      · intro x hx hmem
        rw [List.map_append, List.mem_append] at hmem
        rcases hmem with hmem2 | hk
        · exact hdisj x (List.mem_cons_of_mem r hx) hmem2
        · have hk2 : x.evaluator = r.evaluator := by simpa using hk
          exact hnd.1 (hk2 ▸ List.mem_map_of_mem (fun r => r.evaluator) hx)
    · have hr2 : r.success = false := by simpa using hr
      simp only [metadataConfigsLoop, hr2, Bool.false_eq_true, not_false_eq_true,
        ite_false, List.filter_cons, if_neg]
      exact ih ctx hnd.2 (fun x hx => hdisj x (List.mem_cons_of_mem r hx))

theorem authorizationConfigsLoop_all_success (ctx : AuthContext)
    {rs : List EvaluationResponse}
    (hall : ∀ r ∈ rs, r.success = true)
    (hnd : (rs.map (fun r => r.evaluator)).Nodup)
    (hdisj : ∀ r ∈ rs, r.evaluator ∉ ctx.Authorization.map Prod.fst) :
    authorizationConfigsLoop ctx rs =
      ({ ctx with Authorization :=
          ctx.Authorization ++ rs.map successRecord }, none) := by
  induction rs generalizing ctx with
  | nil => simp [authorizationConfigsLoop]
  | cons r rest ih =>
    simp only [List.map_cons, List.nodup_cons] at hnd
    have hr : r.success = true := hall r (List.mem_cons_self r rest)
    simp only [authorizationConfigsLoop, hr, ite_true, List.map_cons]
    rw [goMapInsert_of_not_mem (hdisj r (List.mem_cons_self r rest))]
    rw [ih _ (fun x hx => hall x (List.mem_cons_of_mem r hx)) hnd.2 ?_]
    · simp [successRecord, List.append_assoc]
    · intro x hx hmem
      rw [List.map_append, List.mem_append] at hmem
      rcases hmem with hmem2 | hk
      · exact hdisj x (List.mem_cons_of_mem r hx) hmem2
      · have hk2 : x.evaluator = r.evaluator := by simpa using hk
        exact hnd.1 (hk2 ▸ List.mem_map_of_mem (fun r => r.evaluator) hx)

theorem authorizationConfigsLoop_split (ctx : AuthContext)
    {pre : List EvaluationResponse} (r : EvaluationResponse)
    (post : List EvaluationResponse)
    (hpre : ∀ x ∈ pre, x.success = true) (hr : r.success = false)
    (hdisj : ∀ x ∈ pre, x.evaluator ∉ ctx.Authorization.map Prod.fst)
    (hnd : (pre.map (fun x => x.evaluator)).Nodup) :
    authorizationConfigsLoop ctx (pre ++ r :: post) =
      ({ ctx with Authorization :=
          ctx.Authorization ++ pre.map successRecord }, r.error) := by
  induction pre generalizing ctx with
  | nil =>
    simp only [List.nil_append, List.map_nil, List.append_nil]
    simp [authorizationConfigsLoop, hr]
  | cons x xs ih =>
    simp only [List.map_cons, List.nodup_cons] at hnd
    have hx : x.success = true := hpre x (List.mem_cons_self x xs)
    simp only [List.cons_append, authorizationConfigsLoop, hx, ite_true,
      List.map_cons, List.append_eq]
    rw [goMapInsert_of_not_mem (hdisj x (List.mem_cons_self x xs))]
    rw [ih _ (fun y hy => hpre y (List.mem_cons_of_mem x hy)) ?_ hnd.2]
    · simp [successRecord, List.append_assoc]
    · intro y hy hmem
      rw [List.map_append, List.mem_append] at hmem
      rcases hmem with hmem2 | hk
      · exact hdisj y (List.mem_cons_of_mem x hy) hmem2
      · have hk2 : y.evaluator = x.evaluator := by simpa using hk
        exact hnd.1 (hk2 ▸ List.mem_map_of_mem (fun r => r.evaluator) hy)

theorem exists_first_failure {rs : List EvaluationResponse}
    (h : ∃ r ∈ rs, r.success = false) :
    ∃ pre r post, rs = pre ++ r :: post ∧ (∀ x ∈ pre, x.success = true) ∧
      r.success = false := by
  induction rs with
  | nil => simp at h
  | cons a rest ih =>
    by_cases ha : a.success = true
    · have hrest : ∃ r ∈ rest, r.success = false := by
        obtain ⟨r, hr, hs⟩ := h
        cases List.mem_cons.mp hr with
        | inl e => rw [e, ha] at hs; cases hs
        | inr h2 => exact ⟨r, h2, hs⟩
      obtain ⟨pre, r, post, heq, hpre, hf⟩ := ih hrest
      refine ⟨a :: pre, r, post, by rw [heq]; rfl, ?_, hf⟩
      intro x hx
      cases List.mem_cons.mp hx with
      | inl e => rw [e]; exact ha
      | inr h2 => exact hpre x h2
    · exact ⟨[], a, rest, rfl, by simp, by simpa using ha⟩

theorem authorizationConfigsLoop_snd (ctx ctx2 : AuthContext)
    (rs : List EvaluationResponse) :
    (authorizationConfigsLoop ctx rs).2 =
      (authorizationConfigsLoop ctx2 rs).2 := by
  induction rs generalizing ctx ctx2 with
  | nil => rfl
  | cons r rest ih =>
    by_cases hr : r.success = true
    · simp only [authorizationConfigsLoop, hr, ite_true]
      exact ih _ _
    · simp [authorizationConfigsLoop, hr]

theorem metadataConfigsLoop_shape (ctx : AuthContext)
    (rs : List EvaluationResponse) :
    metadataConfigsLoop ctx rs =
      { ctx with Metadata := (metadataConfigsLoop ctx rs).Metadata } := by
  induction rs generalizing ctx with
  | nil => rfl
  | cons r rest ih =>
    by_cases hr : r.success = true
    · simp only [metadataConfigsLoop, hr, ite_true]
      exact ih { ctx with
        Metadata := goMapInsert r.evaluator (r.object.getD 0) ctx.Metadata }
    · simp only [metadataConfigsLoop, hr, Bool.false_eq_true, not_false_eq_true,
        ite_false]
      exact ih ctx

theorem authorizationConfigsLoop_fst (ctx : AuthContext)
    (rs : List EvaluationResponse) :
    (authorizationConfigsLoop ctx rs).1 =
      { ctx with Authorization :=
          (authorizationConfigsLoop ctx rs).1.Authorization } := by
  induction rs generalizing ctx with
  | nil => rfl
  | cons r rest ih =>
    by_cases hr : r.success = true
    · simp only [authorizationConfigsLoop, hr, ite_true]
      exact ih { ctx with
        Authorization := goMapInsert r.evaluator (r.object.getD 0)
          ctx.Authorization }
    · simp [authorizationConfigsLoop, hr]

/-! ### The pipeline never reads the parent context -/

theorem identityConfigsLoop_parent (ctx : AuthContext) (b : Bool)
    (le : Option Nat) (rs : List EvaluationResponse) :
    identityConfigsLoop { ctx with parentCancelled := b } le rs =
      ({ (identityConfigsLoop ctx le rs).1 with parentCancelled := b },
        (identityConfigsLoop ctx le rs).2) := by
  induction rs generalizing le with
  | nil => rfl
  | cons r rest ih =>
    by_cases hr : r.success = true
    · simp [identityConfigsLoop, hr]
    · simp only [identityConfigsLoop, hr, Bool.false_eq_true, not_false_eq_true,
        ite_false]
      exact ih r.error

theorem metadataConfigsLoop_parent (ctx : AuthContext) (b : Bool)
    (rs : List EvaluationResponse) :
    metadataConfigsLoop { ctx with parentCancelled := b } rs =
      { (metadataConfigsLoop ctx rs) with parentCancelled := b } := by
  induction rs generalizing ctx with
  | nil => rfl
  | cons r rest ih =>
    by_cases hr : r.success = true
    · simp only [metadataConfigsLoop, hr, ite_true]
      exact ih { ctx with
        Metadata := goMapInsert r.evaluator (r.object.getD 0) ctx.Metadata }
    · simp only [metadataConfigsLoop, hr, Bool.false_eq_true, not_false_eq_true,
        ite_false]
      exact ih ctx

theorem authorizationConfigsLoop_parent (ctx : AuthContext) (b : Bool)
    (rs : List EvaluationResponse) :
    authorizationConfigsLoop { ctx with parentCancelled := b } rs =
      ({ (authorizationConfigsLoop ctx rs).1 with parentCancelled := b },
        (authorizationConfigsLoop ctx rs).2) := by
  induction rs generalizing ctx with
  | nil => rfl
  | cons r rest ih =>
    by_cases hr : r.success = true
    · simp only [authorizationConfigsLoop, hr, ite_true]
      exact ih { ctx with
        Authorization := goMapInsert r.evaluator (r.object.getD 0)
          ctx.Authorization }
    · simp [authorizationConfigsLoop, hr]

/-! ### Facts about `GetMetadata` -/

theorem getMetadata_fold_invariant (l : List (Evaluator × Nat)) :
    ∀ m : List (String × Nat), (m.map Prod.fst).Nodup →
      (((l.foldl (fun acc p => goMapInsert p.1.typeTag p.2 acc) m).map
          Prod.fst).Nodup ∧
        ∀ s, s ∈ (l.foldl (fun acc p => goMapInsert p.1.typeTag p.2 acc) m).map
            Prod.fst ↔
          s ∈ m.map Prod.fst ∨ s ∈ l.map (fun p => p.1.typeTag)) := by
  induction l with
  | nil => exact fun m hm => ⟨hm, by simp⟩
  | cons p rest ih =>
    intro m hm
    obtain ⟨h1, h2⟩ :=
      ih (goMapInsert p.1.typeTag p.2 m) (nodup_map_fst_goMapInsert hm)
    refine ⟨h1, fun s => ?_⟩
    rw [List.foldl_cons, h2 s, mem_map_fst_goMapInsert, List.map_cons,
      List.mem_cons]
    tauto

/-! ### Facts about `splitBearer` -/

theorem bearerSep_length : bearerSep.length = 7 := rfl

theorem splitBearerFuel_congr : ∀ (fuel fuel2 : Nat) (s : List Char),
    s.length ≤ fuel → s.length ≤ fuel2 →
    splitBearerFuel fuel s = splitBearerFuel fuel2 s := by
  intro fuel
  induction fuel with
  | zero =>
    intro fuel2 s hf _
    have hs : s = [] := List.length_eq_zero.mp (Nat.le_zero.mp hf)
    subst hs
    cases fuel2 <;> rfl
  | succ fuel ih =>
    intro fuel2 s hf hf2
    cases s with
    | nil => cases fuel2 <;> rfl
    | cons c rest =>
      cases fuel2 with
      | zero => simp at hf2
      | succ fuel2 =>
        show splitBearerFuel (fuel + 1) (c :: rest) =
          splitBearerFuel (fuel2 + 1) (c :: rest)
        rw [splitBearerFuel, splitBearerFuel]
        by_cases hlm : leadingMatch bearerSep (c :: rest) = true
        · rw [if_pos hlm, if_pos hlm]
          have hd : (List.drop bearerSep.length (c :: rest)).length ≤ fuel := by
            rw [List.length_drop, bearerSep_length]
            simp only [List.length_cons] at hf ⊢
            omega
          have hd2 : (List.drop bearerSep.length (c :: rest)).length ≤ fuel2 := by
            rw [List.length_drop, bearerSep_length]
            simp only [List.length_cons] at hf2 ⊢
            omega
          rw [ih fuel2 _ hd hd2]
        · rw [if_neg hlm, if_neg hlm]
          have hr : rest.length ≤ fuel := by
            simp only [List.length_cons] at hf
            omega
          have hr2 : rest.length ≤ fuel2 := by
            simp only [List.length_cons] at hf2
            omega
          rw [ih fuel2 rest hr hr2]

theorem splitBearerFuel_of_not_contains : ∀ (fuel : Nat) (s : List Char),
    s.length ≤ fuel → containsBearerSep s = false →
    splitBearerFuel fuel s = [s] := by
  intro fuel
  induction fuel with
  | zero => intro s _ _; rfl
  | succ fuel ih =>
    intro s hf h
    cases s with
    | nil => rfl
    | cons c rest =>
      rw [containsBearerSep, Bool.or_eq_false_iff] at h
      rw [splitBearerFuel, if_neg (by rw [h.1]; exact Bool.false_ne_true)]
      rw [ih rest (by simp only [List.length_cons] at hf; omega) h.2]

theorem splitBearer_of_not_contains (s : List Char)
    (h : containsBearerSep s = false) : splitBearer s = [s] :=
  splitBearerFuel_of_not_contains s.length s le_rfl h

theorem leadingMatch_append_self : ∀ (sep t : List Char),
    leadingMatch sep (sep ++ t) = true := by
  intro sep
  induction sep with
  | nil => intro t; rfl
  | cons a as ih => intro t; simp [leadingMatch, ih]

theorem splitBearer_sep_append (t : List Char) :
    splitBearer (bearerSep ++ t) = [] :: splitBearer t := by
  unfold splitBearer
  have hlen : (bearerSep ++ t).length = t.length + 6 + 1 := by
    rw [List.length_append, bearerSep_length]
    omega
  rw [hlen]
  have hcons : bearerSep ++ t = 'B' :: ("earer ".toList ++ t) := rfl
  rw [hcons, splitBearerFuel,
    if_pos (by rw [← hcons]; exact leadingMatch_append_self bearerSep t)]
  have hdrop : List.drop bearerSep.length ('B' :: ("earer ".toList ++ t)) = t := by
    rw [← hcons, bearerSep_length, ← bearerSep_length]
    exact List.drop_left bearerSep t
  rw [hdrop, splitBearerFuel_congr (t.length + 6) t.length t (by omega) le_rfl]

/-! ### Composition facts about `Evaluate` -/

theorem map_evaluator_map_actualResponse (cs : List Evaluator) :
    (cs.map actualResponse).map (fun r => r.evaluator) = cs := by
  rw [List.map_map]
  have h : ((fun r : EvaluationResponse => r.evaluator) ∘ actualResponse)
      = fun ev => ev := by
    funext ev
    exact actualResponse_evaluator ev
  rw [h]
  exact List.map_id cs

theorem Evaluate_identity_none {ctx : AuthContext}
    {rsI : List EvaluationResponse}
    (h : (evaluateIdentityConfigs ctx rsI).2 = none)
    (rsM rsA : List EvaluationResponse) :
    Evaluate ctx rsI rsM rsA =
      evaluateAuthorizationConfigs
        (evaluateMetadataConfigs (evaluateIdentityConfigs ctx rsI).1 rsM)
        rsA := by
  unfold Evaluate
  cases he : evaluateIdentityConfigs ctx rsI with
  | mk c1 e1 =>
    rw [he] at h
    cases e1 with
    | none => rfl
    | some e => exact absurd h (by simp)

theorem Evaluate_identity_some {ctx : AuthContext}
    {rsI : List EvaluationResponse} {e : Nat}
    (h : (evaluateIdentityConfigs ctx rsI).2 = some e)
    (rsM rsA : List EvaluationResponse) :
    Evaluate ctx rsI rsM rsA = ((evaluateIdentityConfigs ctx rsI).1, some e) := by
  unfold Evaluate
  cases he : evaluateIdentityConfigs ctx rsI with
  | mk c1 e1 =>
    rw [he] at h
    cases e1 with
    | none => exact absurd h (by simp)
    | some e2 =>
      simp only [Option.some.injEq] at h
      rw [h]

theorem evaluateIdentityConfigs_Metadata (ctx : AuthContext)
    (rsI : List EvaluationResponse) :
    (evaluateIdentityConfigs ctx rsI).1.Metadata = ctx.Metadata := by
  unfold evaluateIdentityConfigs
  rw [identityConfigsLoop_fst]

theorem evaluateIdentityConfigs_Authorization (ctx : AuthContext)
    (rsI : List EvaluationResponse) :
    (evaluateIdentityConfigs ctx rsI).1.Authorization = ctx.Authorization := by
  unfold evaluateIdentityConfigs
  rw [identityConfigsLoop_fst]

theorem evaluateMetadataConfigs_Identity (ctx : AuthContext)
    (rsM : List EvaluationResponse) :
    (evaluateMetadataConfigs ctx rsM).Identity = ctx.Identity := by
  unfold evaluateMetadataConfigs
  rw [metadataConfigsLoop_shape]

theorem evaluateMetadataConfigs_Authorization (ctx : AuthContext)
    (rsM : List EvaluationResponse) :
    (evaluateMetadataConfigs ctx rsM).Authorization = ctx.Authorization := by
  unfold evaluateMetadataConfigs
  rw [metadataConfigsLoop_shape]

theorem authorizationConfigsLoop_error_isSome (ctx : AuthContext)
    {rs : List EvaluationResponse} (hf : ∃ r ∈ rs, r.success = false)
    (herr : ∀ r ∈ rs, r.success = false → r.error.isSome = true) :
    ((authorizationConfigsLoop ctx rs).2).isSome = true := by
  induction rs generalizing ctx with
  | nil => simp at hf
  | cons r rest ih =>
    by_cases hr : r.success = true
    · simp only [authorizationConfigsLoop, hr, ite_true]
      refine ih _ ?_ (fun x hx hxf => herr x (List.mem_cons_of_mem r hx) hxf)
      obtain ⟨x, hx, hxf⟩ := hf
      cases List.mem_cons.mp hx with
      | inl e => rw [e, hr] at hxf; cases hxf
      | inr h2 => exact ⟨x, h2, hxf⟩
    · have hr2 : r.success = false := by simpa using hr
      simp only [authorizationConfigsLoop, hr2, Bool.false_eq_true,
        not_false_eq_true, ite_false]
      exact herr r (List.mem_cons_self r rest) hr2

theorem succeeds_iff_ok {ev : Evaluator} :
    ev.succeeds = true ↔ ∃ obj, ev.call = Except.ok obj := by
  unfold Evaluator.succeeds
  cases hc : ev.call with
  | ok o => simp
  | error e => simp

theorem filter_map_actualResponse (cs : List Evaluator) :
    (cs.map actualResponse).filter (fun r => r.success) =
      (cs.filter (fun ev => ev.succeeds)).map actualResponse := by
  induction cs with
  | nil => rfl
  | cons ev rest ih =>
    simp only [List.map_cons, List.filter_cons, actualResponse_success]
    by_cases hs : ev.succeeds = true
    · simp [hs, ih]
    · have hs2 : ev.succeeds = false := by simpa using hs
      simp [hs2, ih]

/-! ### The claims -/

/-- C1: the authorization phase is all-or-nothing.  For every valid channel
content of the `evaluateAllAuthConfigs` fan-out over the configured
authorization evaluators, run from a fresh `Authorization` map and after an
identity phase that returned no error: if every authorization evaluator
succeeds, `Evaluate` returns allow (no error) and the `Authorization` result
map holds exactly one entry per evaluator; if at least one fails, `Evaluate`
returns the authorization-denied failure; if no authorization evaluator is
configured, `Evaluate` returns allow. -/
theorem authorization_all_or_nothing (ctx : AuthContext)
    (rsI rsM rsA : List EvaluationResponse)
    (hA : allAuthConfigsChannel ctx.apiAuthorizationConfigs rsA)
    (hnd : ctx.apiAuthorizationConfigs.Nodup)
    (h0 : ctx.Authorization = [])
    (hid : (evaluateIdentityConfigs ctx rsI).2 = none) :
    ((∀ ev ∈ ctx.apiAuthorizationConfigs, ev.succeeds = true) →
      (Evaluate ctx rsI rsM rsA).2 = none ∧
        ((Evaluate ctx rsI rsM rsA).1.Authorization.map Prod.fst).Perm
          ctx.apiAuthorizationConfigs) ∧
    ((∃ ev ∈ ctx.apiAuthorizationConfigs, ev.succeeds = false) →
      ((Evaluate ctx rsI rsM rsA).2).isSome = true) ∧
    (ctx.apiAuthorizationConfigs = [] →
      (Evaluate ctx rsI rsM rsA).2 = none) := by
  rw [Evaluate_identity_none hid rsM rsA]
  have hA2 : (evaluateMetadataConfigs (evaluateIdentityConfigs ctx rsI).1
      rsM).Authorization = [] := by
    rw [evaluateMetadataConfigs_Authorization,
      evaluateIdentityConfigs_Authorization, h0]
  refine ⟨?_, ?_, ?_⟩
  · intro hall
    have hperm := allChannel_perm_of_all_success hA hall
    have hallr : ∀ r ∈ rsA, r.success = true := by
      intro r hr
      obtain ⟨ev, hev, rfl⟩ := mem_map_actualResponse (hperm.subset hr)
      rw [actualResponse_success]
      exact hall ev hev
    have hndr := channel_evaluators_nodup hA.1 hnd
    have hloop := authorizationConfigsLoop_all_success
      (evaluateMetadataConfigs (evaluateIdentityConfigs ctx rsI).1 rsM)
      hallr hndr (by rw [hA2]; simp)
    constructor
    · unfold evaluateAuthorizationConfigs
      rw [hloop]
    · have hmap : (evaluateAuthorizationConfigs
          (evaluateMetadataConfigs (evaluateIdentityConfigs ctx rsI).1 rsM)
          rsA).1.Authorization =
        (evaluateMetadataConfigs (evaluateIdentityConfigs ctx rsI).1
          rsM).Authorization ++ rsA.map successRecord := by
        unfold evaluateAuthorizationConfigs
        rw [hloop]
      rw [hmap, hA2]
      simp only [List.nil_append, List.map_map]
      have hkey : List.map (Prod.fst ∘ successRecord) rsA =
          List.map (fun r => r.evaluator) rsA := rfl
      rw [hkey]
      have hp2 := hperm.map (fun r => r.evaluator)
      rwa [map_evaluator_map_actualResponse] at hp2
  · intro hex
    have hfr := allChannel_exists_failure hA hex
    have herr : ∀ r ∈ rsA, r.success = false → r.error.isSome = true := by
      intro r hr hrf
      obtain ⟨ev, hev, rfl⟩ := mem_map_actualResponse (hA.1.subset hr)
      rw [actualResponse_success] at hrf
      exact actualResponse_error_isSome ev hrf
    unfold evaluateAuthorizationConfigs
    exact authorizationConfigsLoop_error_isSome _ hfr herr
  · intro hcs
    rw [hcs] at hA
    have hrs : rsA = [] := by
      have h1 := hA.1
      simp only [List.map_nil] at h1
      exact List.subperm_nil.mp h1
    rw [hrs]
    rfl

/-- Witness for C1: one succeeding identity evaluator, one succeeding
metadata evaluator, one succeeding authorization evaluator; the pipeline
allows and records the authorization result. -/
theorem authorization_all_or_nothing_witness :
    (Evaluate (NewAuthContext false [] [evOkA] [evOkB] [evOkD])
        [actualResponse evOkA] [actualResponse evOkB]
        [actualResponse evOkD]).2 = none ∧
    ((Evaluate (NewAuthContext false [] [evOkA] [evOkB] [evOkD])
        [actualResponse evOkA] [actualResponse evOkB]
        [actualResponse evOkD]).1.Authorization.map Prod.fst).Perm
      (NewAuthContext false [] [evOkA] [evOkB] [evOkD]).apiAuthorizationConfigs :=
  (authorization_all_or_nothing
      (NewAuthContext false [] [evOkA] [evOkB] [evOkD])
      [actualResponse evOkA] [actualResponse evOkB] [actualResponse evOkD]
      (by decide) (by decide) (by decide) (by decide)).1 (by decide)

/-- C2 counterexample: with an empty identity-evaluator list (and empty
channel, the only valid one), `Evaluate` returns allow, not an
authentication failure. -/
theorem empty_identity_allows_cex :
    oneAuthConfigChannel
      (NewAuthContext false [] [] [] []).apiIdentityConfigs [] ∧
    (Evaluate (NewAuthContext false [] [] [] []) [] [] []).2 = none :=
  ⟨by decide, by decide⟩

/-- C2 (amended): with an empty identity-evaluator list the identity phase
returns no error and leaves the context unchanged — there is no
`NoIdentitySource` failure in the code — and the pipeline proceeds to the
metadata and authorization phases, so the request is allowed whenever they
produce no error. -/
theorem empty_identity_vacuous_success (ctx : AuthContext)
    (rsI : List EvaluationResponse)
    (hempty : ctx.apiIdentityConfigs = [])
    (h : oneAuthConfigChannel ctx.apiIdentityConfigs rsI) :
    evaluateIdentityConfigs ctx rsI = (ctx, none) ∧
    ∀ rsM rsA, Evaluate ctx rsI rsM rsA =
      evaluateAuthorizationConfigs (evaluateMetadataConfigs ctx rsM) rsA := by
  have hrs : rsI = [] := by
    rw [hempty] at h
    have h1 := h.1
    simp only [List.map_nil] at h1
    exact List.subperm_nil.mp h1
  subst hrs
  refine ⟨rfl, fun rsM rsA => ?_⟩
  rw [Evaluate_identity_none (by rfl) rsM rsA]
  rfl

/-- Witness for the amended C2. -/
theorem empty_identity_vacuous_success_witness :
    evaluateIdentityConfigs (NewAuthContext false [] [] [evOkB] [evOkD]) [] =
      (NewAuthContext false [] [] [evOkB] [evOkD], none) :=
  (empty_identity_vacuous_success
    (NewAuthContext false [] [] [evOkB] [evOkD]) [] rfl (by decide)).1

/-- C3: identity short-circuit.  For every valid channel content of the
`evaluateOneAuthConfig` fan-out over a list of identity evaluators at least
one of which succeeds, the identity phase returns no error and the `Identity`
result map afterwards holds exactly one entry, the result object of a
succeeding evaluator; later responses are discarded. -/
theorem identity_short_circuit (ctx : AuthContext)
    (rsI : List EvaluationResponse)
    (h : oneAuthConfigChannel ctx.apiIdentityConfigs rsI)
    (hs : ∃ ev ∈ ctx.apiIdentityConfigs, ev.succeeds = true)
    (h0 : ctx.Identity = []) :
    (evaluateIdentityConfigs ctx rsI).2 = none ∧
    ∃ ev obj, ev ∈ ctx.apiIdentityConfigs ∧ ev.call = Except.ok obj ∧
      (evaluateIdentityConfigs ctx rsI).1.Identity = [(ev, obj)] := by
  have hrs := oneChannel_exists_success h hs
  obtain ⟨r, hrmem, hrsucc, heq⟩ :=
    identityConfigsLoop_first_success ctx none hrs
  obtain ⟨ev, hev, rfl⟩ := mem_map_actualResponse (h.1.subset hrmem)
  rw [actualResponse_success] at hrsucc
  obtain ⟨obj, hobj⟩ := succeeds_iff_ok.mp hrsucc
  refine ⟨?_, ev, obj, hev, hobj, ?_⟩
  · unfold evaluateIdentityConfigs
    rw [heq]
  · unfold evaluateIdentityConfigs
    rw [heq]
    show goMapInsert (actualResponse ev).evaluator
        ((actualResponse ev).object.getD 0) ctx.Identity = [(ev, obj)]
    rw [actualResponse_evaluator, actualResponse_object ev hobj, h0]
    rw [goMapInsert_of_not_mem (by simp)]
    rfl

/-- Witness for C3: a failing and a succeeding identity evaluator; the phase
succeeds with a single recorded identity. -/
theorem identity_short_circuit_witness :
    (evaluateIdentityConfigs (NewAuthContext false [] [evFailC, evOkA] [] [])
        [actualResponse evFailC, actualResponse evOkA]).2 = none ∧
    ∃ ev obj,
      ev ∈ (NewAuthContext false [] [evFailC, evOkA] [] []).apiIdentityConfigs ∧
      ev.call = Except.ok obj ∧
      (evaluateIdentityConfigs (NewAuthContext false [] [evFailC, evOkA] [] [])
          [actualResponse evFailC, actualResponse evOkA]).1.Identity =
        [(ev, obj)] :=
  identity_short_circuit (NewAuthContext false [] [evFailC, evOkA] [] [])
    [actualResponse evFailC, actualResponse evOkA]
    (by decide) (by decide) (by decide)

/-- C5: the metadata phase never fails.  For every valid channel content of
the `evaluateAnyAuthConfig` fan-out over the configured metadata evaluators,
run from a fresh `Metadata` map: afterwards the `Metadata` result map holds
exactly one entry per succeeding evaluator and none for a failing one, and
the metadata channel content has no influence on the verdict `Evaluate`
returns. -/
theorem metadata_never_fails (ctx : AuthContext)
    (rsM : List EvaluationResponse)
    (h : anyAuthConfigChannel ctx.apiMetadataConfigs rsM)
    (hnd : ctx.apiMetadataConfigs.Nodup)
    (h0 : ctx.Metadata = []) :
    ((evaluateMetadataConfigs ctx rsM).Metadata.map Prod.fst).Perm
      (ctx.apiMetadataConfigs.filter (fun ev => ev.succeeds)) ∧
    ∀ rsI rsA rsM2, (Evaluate ctx rsI rsM rsA).2 =
      (Evaluate ctx rsI rsM2 rsA).2 := by
  constructor
  · have hndr := channel_evaluators_nodup h.subperm hnd
    have hloop := metadataConfigsLoop_append ctx hndr (by rw [h0]; simp)
    have hmap : (evaluateMetadataConfigs ctx rsM).Metadata =
        ctx.Metadata ++ (rsM.filter (fun r => r.success)).map successRecord := by
      unfold evaluateMetadataConfigs
      rw [hloop]
    rw [hmap, h0]
    simp only [List.nil_append, List.map_map]
    have hkey : List.map (Prod.fst ∘ successRecord)
        (rsM.filter (fun r => r.success)) =
      List.map (fun r => r.evaluator) (rsM.filter (fun r => r.success)) := rfl
    rw [hkey]
    have hfil := h.filter (fun r => r.success)
    rw [filter_map_actualResponse] at hfil
    have hp := hfil.map (fun r => r.evaluator)
    rwa [map_evaluator_map_actualResponse] at hp
  · intro rsI rsA rsM2
    cases he : (evaluateIdentityConfigs ctx rsI).2 with
    | some e =>
      rw [Evaluate_identity_some he rsM rsA, Evaluate_identity_some he rsM2 rsA]
    | none =>
      rw [Evaluate_identity_none he rsM rsA, Evaluate_identity_none he rsM2 rsA]
      unfold evaluateAuthorizationConfigs
      exact authorizationConfigsLoop_snd _ _ rsA

/-- Witness for C5: one succeeding and one failing metadata evaluator; the
map afterwards holds exactly the succeeding one. -/
theorem metadata_never_fails_witness :
    ((evaluateMetadataConfigs (NewAuthContext false [] [] [evOkB, evFailC] [])
        [actualResponse evFailC, actualResponse evOkB]).Metadata.map
      Prod.fst).Perm
      ((NewAuthContext false [] [] [evOkB, evFailC]
          []).apiMetadataConfigs.filter (fun ev => ev.succeeds)) :=
  (metadata_never_fails (NewAuthContext false [] [] [evOkB, evFailC] [])
    [actualResponse evFailC, actualResponse evOkB]
    (by decide) (by decide) (by decide)).1

/-- C7: when every identity evaluator of a non-empty list fails, `Evaluate`
returns the error of the last failure observed on the channel and aborts the
pipeline: the metadata and authorization phases are not run, and their result
maps stay empty. -/
theorem identity_all_fail_aborts (ctx : AuthContext)
    (rsI rsM rsA : List EvaluationResponse)
    (h : oneAuthConfigChannel ctx.apiIdentityConfigs rsI)
    (hne : ctx.apiIdentityConfigs ≠ [])
    (hfail : ∀ ev ∈ ctx.apiIdentityConfigs, ev.succeeds = false)
    (h0M : ctx.Metadata = []) (h0A : ctx.Authorization = []) :
    ∃ r, rsI.getLast? = some r ∧ r.error.isSome = true ∧
      (Evaluate ctx rsI rsM rsA).2 = r.error ∧
      (Evaluate ctx rsI rsM rsA).1.Metadata = [] ∧
      (Evaluate ctx rsI rsM rsA).1.Authorization = [] := by
  have hperm := oneChannel_perm_of_all_fail h hfail
  have hallf : ∀ r ∈ rsI, r.success = false := by
    intro r hr
    obtain ⟨ev, hev, rfl⟩ := mem_map_actualResponse (hperm.subset hr)
    rw [actualResponse_success]
    exact hfail ev hev
  have hne2 : rsI ≠ [] := by
    intro hnil
    apply hne
    rw [hnil] at hperm
    have hlen := hperm.length_eq
    simp only [List.length_nil, List.length_map] at hlen
    exact List.length_eq_zero.mp hlen.symm
  obtain ⟨r, hlast, hmem, hfold⟩ := foldl_error_getLast hne2 none
  have hid : evaluateIdentityConfigs ctx rsI = (ctx, r.error) := by
    unfold evaluateIdentityConfigs
    rw [identityConfigsLoop_all_fail ctx none hallf, hfold]
  have hrerr : r.error.isSome = true := by
    obtain ⟨ev, hev, req⟩ := mem_map_actualResponse (hperm.subset hmem)
    rw [req]
    exact actualResponse_error_isSome ev (hfail ev hev)
  obtain ⟨e, he⟩ := Option.isSome_iff_exists.mp hrerr
  have hEval : Evaluate ctx rsI rsM rsA = (ctx, some e) := by
    rw [Evaluate_identity_some (by rw [hid, he]) rsM rsA, hid]
  refine ⟨r, hlast, hrerr, ?_, ?_, ?_⟩
  · rw [hEval, he]
  · rw [hEval]
    exact h0M
  · rw [hEval]
    exact h0A

/-- Witness for C7: two failing identity evaluators; the pipeline returns the
last failure and the later result maps stay empty. -/
theorem identity_all_fail_aborts_witness :
    ∃ r, [actualResponse evFailC, actualResponse evFailE].getLast? = some r ∧
      r.error.isSome = true ∧
      (Evaluate (NewAuthContext false [] [evFailC, evFailE] [evOkB] [evOkD])
          [actualResponse evFailC, actualResponse evFailE] [] []).2 = r.error ∧
      (Evaluate (NewAuthContext false [] [evFailC, evFailE] [evOkB] [evOkD])
          [actualResponse evFailC, actualResponse evFailE] [] []).1.Metadata =
        [] ∧
      (Evaluate (NewAuthContext false [] [evFailC, evFailE] [evOkB] [evOkD])
          [actualResponse evFailC, actualResponse evFailE] []
          []).1.Authorization = [] :=
  identity_all_fail_aborts
    (NewAuthContext false [] [evFailC, evFailE] [evOkB] [evOkD])
    [actualResponse evFailC, actualResponse evFailE] [] []
    (by decide) (by decide) (by decide) (by decide) (by decide)

/-- C9: `AuthorizationToken` is total — for every request, also one without
an `authorization` header (nil split slice), it returns a token or the
malformed-credential error and never reaches the indexing step with a slice
of length other than two, so the run that would panic (result `none`) is
unreachable. -/
theorem authorization_token_total (ctx : AuthContext) :
    (AuthorizationToken ctx).isSome = true := by
  unfold AuthorizationToken
  cases hentry : ctx.requestHeaders.lookup "authorization" with
  | none => simp
  | some hdr =>
    simp only [Option.isSome_some, Option.getD_some, ite_true]
    by_cases hlen : (splitBearer hdr).length = 2
    · rw [if_neg]
      · cases hq : (splitBearer hdr).get? 1 with
        | none =>
          have hle := List.get?_eq_none.mp hq
          omega
        | some x => simp
      · simp [hlen]
    · rw [if_pos (Or.inr hlen)]
      simp

/-- C4 counterexample: the header consisting of exactly "Bearer " splits
into two parts around the separator, so the code returns the empty token
successfully instead of the malformed-credential failure the claim
demands. -/
theorem bearer_empty_token_cex :
    AuthorizationToken
        (NewAuthContext false [("authorization", "Bearer ".toList)] [] [] []) =
      some (Except.ok []) := by decide

/-- C4 (amended): `AuthorizationToken` returns the text after "Bearer "
whenever the header is "Bearer " followed by a remainder free of further
"Bearer " occurrences — including the empty remainder, so "Bearer " yields
the empty token, not a failure; when the header is absent, or contains no
occurrence of "Bearer " at all (such as the lowercase "bearer abc"), it
returns the malformed-credential failure. -/
theorem authorization_token_split_semantics (ctx : AuthContext) :
    (∀ t : List Char, containsBearerSep t = false →
      ctx.requestHeaders.lookup "authorization" = some (bearerSep ++ t) →
      AuthorizationToken ctx = some (Except.ok t)) ∧
    (ctx.requestHeaders.lookup "authorization" = none →
      AuthorizationToken ctx = some (Except.error malformedCredential)) ∧
    (∀ hdr : List Char, ctx.requestHeaders.lookup "authorization" = some hdr →
      containsBearerSep hdr = false →
      AuthorizationToken ctx = some (Except.error malformedCredential)) := by
  refine ⟨?_, ?_, ?_⟩
  · intro t hnc hlook
    unfold AuthorizationToken
    rw [hlook]
    simp only [Option.isSome_some, Option.getD_some, ite_true]
    rw [splitBearer_sep_append, splitBearer_of_not_contains t hnc]
    rw [if_neg]
    · rfl
    · simp
  · intro hlook
    unfold AuthorizationToken
    rw [hlook]
    simp
  · intro hdr hlook hnc
    unfold AuthorizationToken
    rw [hlook]
    simp only [Option.isSome_some, Option.getD_some, ite_true]
    rw [splitBearer_of_not_contains hdr hnc]
    rw [if_pos (Or.inr (by simp))]

/-- Witness for the amended C4: "Bearer abc" yields the token "abc". -/
theorem authorization_token_split_semantics_witness :
    AuthorizationToken
        (NewAuthContext false [("authorization", "Bearer abc".toList)]
          [] [] []) =
      some (Except.ok "abc".toList) :=
  (authorization_token_split_semantics
      (NewAuthContext false [("authorization", "Bearer abc".toList)]
        [] [] [])).1
    "abc".toList (by decide) (by decide)

/-- C6 counterexample: an auth context whose parent context is cancelled,
with valid channels for each phase, on which `Evaluate` still returns allow
rather than an aborted failure. -/
theorem parent_cancelled_still_allows_cex :
    (NewAuthContext true [] [evOkA] [evOkB] [evOkD]).parentCancelled = true ∧
    oneAuthConfigChannel
      (NewAuthContext true [] [evOkA] [evOkB] [evOkD]).apiIdentityConfigs
      [actualResponse evOkA] ∧
    anyAuthConfigChannel
      (NewAuthContext true [] [evOkA] [evOkB] [evOkD]).apiMetadataConfigs
      [actualResponse evOkB] ∧
    allAuthConfigsChannel
      (NewAuthContext true [] [evOkA] [evOkB] [evOkD]).apiAuthorizationConfigs
      [actualResponse evOkD] ∧
    (Evaluate (NewAuthContext true [] [evOkA] [evOkB] [evOkD])
        [actualResponse evOkA] [actualResponse evOkB]
        [actualResponse evOkD]).2 = none :=
  ⟨rfl, by decide, by decide, by decide, by decide⟩

/-- C6 (amended): the pipeline never consults the parent cancellation
context — the fan-out runners derive their contexts from a fresh background
context — so the state of the parent context has no influence on the result
or the result maps of `Evaluate`, and no aborted failure exists. -/
theorem evaluate_ignores_parent_cancellation (ctx : AuthContext) (b : Bool)
    (rsI rsM rsA : List EvaluationResponse) :
    Evaluate { ctx with parentCancelled := b } rsI rsM rsA =
      ({ (Evaluate ctx rsI rsM rsA).1 with parentCancelled := b },
        (Evaluate ctx rsI rsM rsA).2) := by
  unfold Evaluate evaluateIdentityConfigs evaluateMetadataConfigs
    evaluateAuthorizationConfigs
  cases he : identityConfigsLoop ctx none rsI with
  | mk c1 e1 =>
    have hpar := identityConfigsLoop_parent ctx b none rsI
    rw [he] at hpar
    have hpar2 : identityConfigsLoop { ctx with parentCancelled := b } none
        rsI = ({ c1 with parentCancelled := b }, e1) := hpar
    cases e1 with
    | some e => rw [hpar2]
    | none =>
      rw [hpar2]
      show authorizationConfigsLoop
          (metadataConfigsLoop { c1 with parentCancelled := b } rsM) rsA =
        ({ (authorizationConfigsLoop (metadataConfigsLoop c1 rsM) rsA).1
            with parentCancelled := b },
          (authorizationConfigsLoop (metadataConfigsLoop c1 rsM) rsA).2)
      rw [metadataConfigsLoop_parent c1 b rsM,
        authorizationConfigsLoop_parent (metadataConfigsLoop c1 rsM) b rsA]

/-- C8: the metadata view built by `GetMetadata` is keyed by evaluator type
tag: its keys are exactly the type tags occurring among the recorded
metadata results, without duplicates, so its size is the number of distinct
type tags — two recorded results sharing a type tag collapse into a single
entry. -/
theorem getMetadata_collapses_type_tags (ctx : AuthContext) :
    ((GetMetadata ctx).map Prod.fst).Nodup ∧
    (∀ s, s ∈ (GetMetadata ctx).map Prod.fst ↔
      s ∈ ctx.Metadata.map (fun p => p.1.typeTag)) ∧
    (GetMetadata ctx).length =
      (ctx.Metadata.map (fun p => p.1.typeTag)).dedup.length := by
  unfold GetMetadata
  obtain ⟨h1, h2⟩ := getMetadata_fold_invariant ctx.Metadata [] (by simp)
  have h2x : ∀ s,
      s ∈ (ctx.Metadata.foldl (fun m p => goMapInsert p.1.typeTag p.2 m)
          []).map Prod.fst ↔
        s ∈ ctx.Metadata.map (fun p => p.1.typeTag) := by
    intro s
    have h3 := h2 s
    simp only [List.map_nil, List.not_mem_nil, false_or] at h3
    exact h3
  refine ⟨h1, h2x, ?_⟩
  have hfin : ((ctx.Metadata.foldl (fun m p => goMapInsert p.1.typeTag p.2 m)
        []).map Prod.fst).toFinset =
      (ctx.Metadata.map (fun p => p.1.typeTag)).toFinset := by
    ext s
    simp only [List.mem_toFinset]
    exact h2x s
  have e1 : (ctx.Metadata.foldl (fun m p => goMapInsert p.1.typeTag p.2 m)
        []).length =
      ((ctx.Metadata.foldl (fun m p => goMapInsert p.1.typeTag p.2 m)
        []).map Prod.fst).length := (List.length_map _ _).symm
  rw [e1, ← List.dedup_eq_self.mpr h1, ← List.card_toFinset,
    ← List.card_toFinset, hfin]

/-- C10: when the authorization phase denies, the `Authorization` result map
is not rolled back: after `Evaluate` returns the denial it holds exactly the
evaluators whose successes were observed on the channel before the first
failure (possibly none, possibly several). -/
theorem authorization_partial_results_on_denial (ctx : AuthContext)
    (rsI rsM rsA : List EvaluationResponse)
    (hA : allAuthConfigsChannel ctx.apiAuthorizationConfigs rsA)
    (hnd : ctx.apiAuthorizationConfigs.Nodup)
    (h0 : ctx.Authorization = [])
    (hid : (evaluateIdentityConfigs ctx rsI).2 = none)
    (hf : ∃ ev ∈ ctx.apiAuthorizationConfigs, ev.succeeds = false) :
    ∃ pre r post, rsA = pre ++ r :: post ∧ (∀ x ∈ pre, x.success = true) ∧
      r.success = false ∧ r.error.isSome = true ∧
      (Evaluate ctx rsI rsM rsA).2 = r.error ∧
      (Evaluate ctx rsI rsM rsA).1.Authorization.map Prod.fst =
        pre.map (fun x => x.evaluator) := by
  rw [Evaluate_identity_none hid rsM rsA]
  have hA2 : (evaluateMetadataConfigs (evaluateIdentityConfigs ctx rsI).1
      rsM).Authorization = [] := by
    rw [evaluateMetadataConfigs_Authorization,
      evaluateIdentityConfigs_Authorization, h0]
  have hfr := allChannel_exists_failure hA hf
  obtain ⟨pre, r, post, heqs, hpre, hrf⟩ := exists_first_failure hfr
  have hndr := channel_evaluators_nodup hA.1 hnd
  have hndpre : (pre.map (fun x => x.evaluator)).Nodup := by
    rw [heqs] at hndr
    have hsub : List.Sublist pre (pre ++ r :: post) :=
      List.sublist_append_left pre (r :: post)
    exact hndr.sublist (hsub.map (fun x => x.evaluator))
  have hrerr : r.error.isSome = true := by
    have hrmem : r ∈ rsA := by rw [heqs]; simp
    obtain ⟨ev, hev, req⟩ := mem_map_actualResponse (hA.1.subset hrmem)
    rw [req]
    apply actualResponse_error_isSome
    rw [req, actualResponse_success] at hrf
    exact hrf
  have hloop := authorizationConfigsLoop_split
    (evaluateMetadataConfigs (evaluateIdentityConfigs ctx rsI).1 rsM)
    r post hpre hrf (by rw [hA2]; simp) hndpre
  refine ⟨pre, r, post, heqs, hpre, hrf, hrerr, ?_, ?_⟩
  · rw [heqs]
    unfold evaluateAuthorizationConfigs
    rw [hloop]
  · rw [heqs]
    have hmap : (evaluateAuthorizationConfigs
        (evaluateMetadataConfigs (evaluateIdentityConfigs ctx rsI).1 rsM)
        (pre ++ r :: post)).1.Authorization =
      (evaluateMetadataConfigs (evaluateIdentityConfigs ctx rsI).1
          rsM).Authorization ++ pre.map successRecord := by
      unfold evaluateAuthorizationConfigs
      rw [hloop]
    rw [hmap, hA2]
    simp only [List.nil_append, List.map_map]
    rfl

/-- Witness for C10: a succeeding authorization evaluator observed before a
failing one; the denial leaves the partial success recorded. -/
theorem authorization_partial_results_on_denial_witness :
    ∃ pre r post,
      [actualResponse evOkD, actualResponse evFailC] = pre ++ r :: post ∧
      (∀ x ∈ pre, x.success = true) ∧ r.success = false ∧
      r.error.isSome = true ∧
      (Evaluate (NewAuthContext false [] [evOkA] [] [evOkD, evFailC])
          [actualResponse evOkA] []
          [actualResponse evOkD, actualResponse evFailC]).2 = r.error ∧
      (Evaluate (NewAuthContext false [] [evOkA] [] [evOkD, evFailC])
          [actualResponse evOkA] []
          [actualResponse evOkD,
            actualResponse evFailC]).1.Authorization.map Prod.fst =
        pre.map (fun x => x.evaluator) :=
  authorization_partial_results_on_denial
    (NewAuthContext false [] [evOkA] [] [evOkD, evFailC])
    [actualResponse evOkA] [] [actualResponse evOkD, actualResponse evFailC]
    (by decide) (by decide) (by decide) (by decide) (by decide)

end Authorino
